import Mathlib

/-!
Verification of the milo editor core (line model, document buffer, search,
key decoding) against its design document.  Rust strings are modelled as
lists of characters, machine integers as natural numbers (with an explicit
wrap modulo two to the 64 when a usize subtraction can wrap in release
builds), fallible operations (indexing and string operations that can
panic) as Option-valued functions.
-/

namespace Milo

def TAB_STOP : Nat := 8

/-- Line owns the logical text (actual) and the derived render form
(rendered), rebuilt whenever the logical text changes. -/
structure Line where
  actual : List Char
  rendered : List Char
deriving DecidableEq, Repr

instance : Inhabited Line := ⟨⟨[], []⟩⟩

/-- Loop body of Line::update for a tab character: push one space, then keep
pushing spaces while the rendered length is not a multiple of TAB_STOP.
The source while-loop runs at most TAB_STOP iterations, so it is embedded
with a fuel of TAB_STOP; the characterisation lemma below shows the fuel is
never exhausted. -/
def padLoop : Nat → List Char → List Char
  | 0, r => r
  | fuel+1, r => if r.length % TAB_STOP = 0 then r else padLoop fuel (r ++ [' '])

/-- One step of Line::update: a tab pushes a space and pads to the next tab
stop, any other character is pushed as one cell. -/
def renderStep (r : List Char) (c : Char) : List Char :=
  if c = '\t' then padLoop TAB_STOP (r ++ [' ']) else r ++ [c]

/-- Line::update: recompute the rendered text from the logical text. -/
def Line.update (actual : List Char) : List Char :=
  actual.foldl renderStep []

/-- Line::new. -/
def Line.new (actual : List Char) : Line :=
  ⟨actual, Line.update actual⟩

/-- Line::len (length of the logical text). -/
def Line.len (l : Line) : Nat := l.actual.length

/-- Line::content. -/
def Line.content (l : Line) : List Char := l.actual

/-- Line::insert; String::insert panics when the position is past the end,
modelled as none. -/
def Line.insert (l : Line) (pos : Nat) (c : Char) : Option Line :=
  if pos ≤ l.actual.length then
    some (Line.new (l.actual.take pos ++ c :: l.actual.drop pos))
  else none

/-- Line::remove; String::remove panics when the position is out of bounds,
modelled as none. -/
def Line.remove (l : Line) (pos : Nat) : Option Line :=
  if pos < l.actual.length then
    some (Line.new (l.actual.take pos ++ l.actual.drop (pos + 1)))
  else none

/-- Line::push_str. -/
def Line.push_str (l : Line) (s : List Char) : Line :=
  Line.new (l.actual ++ s)

/-- Line::split_off; String::split_off panics when the index is past the
end, modelled as none.  Returns the shortened line and the tail. -/
def Line.split_off (l : Line) (index : Nat) : Option (Line × List Char) :=
  if index ≤ l.actual.length then
    some (Line.new (l.actual.take index), l.actual.drop index)
  else none

/-- Fold step of Line::render_position: an ordinary character advances the
render column by one, a tab advances it to the next multiple of TAB_STOP. -/
def rx_step (rx : Nat) (c : Char) : Nat :=
  if c = '\t' then rx + TAB_STOP - rx % TAB_STOP else rx + 1

/-- Line::render_position: rendered column of a logical offset. -/
def Line.render_position (l : Line) (pos : Nat) : Nat :=
  (l.actual.take pos).foldl rx_step 0

/-- Helper for Line::match_indices: scan positions left to right, record a
match when the needle occurs at the position, and continue non-overlapping
(after a match, jump past it).  Fuel bounds the scan by the text length. -/
def matchIndicesAux (hay needle : List Char) : Nat → Nat → List Nat
  | _, 0 => []
  | i, fuel+1 =>
    if i ≤ hay.length then
      if needle = (hay.drop i).take needle.length then
        i :: matchIndicesAux hay needle (i + max 1 needle.length) fuel
      else matchIndicesAux hay needle (i + 1) fuel
    else []

/-- Line::match_indices: offsets of the non-overlapping occurrences of the
query in the rendered text, in left-to-right order (str::match_indices). -/
def Line.match_indices (l : Line) (query : List Char) : List Nat :=
  matchIndicesAux l.rendered query 0 (l.rendered.length + 1)

/-- Scan underlying Line::render_to_cursor_position: walk the logical text
tracking the rendered column range of each character and return the logical
offset whose range contains the requested rendered column. -/
def rtcAux : List Char → Nat → Nat → Nat → Nat
  | [], _, cx, _ => cx
  | c :: rest, rpos, cx, rx =>
    if rpos < rx_step rx c then cx else rtcAux rest rpos (cx + 1) (rx_step rx c)

/-- Modelled from the spec: Line::render_to_cursor_position is called by
Buffer::find_forward and Buffer::find_reverse but its definition is not
under src; the spec describes it as the inverse of render_position, a scan
of the text finding which logical offset produced a given rendered column
range. -/
def Line.render_to_cursor_position (l : Line) (rpos : Nat) : Nat :=
  rtcAux l.actual rpos 0 0

/-- Modelled from the spec: Line::cursor_to_render_position is called by
Buffer::scroll but its definition is not under src; the spec says scroll
recomputes render_col as the rendered-column equivalent of the logical
cursor column, which is the map render_position. -/
def Line.cursor_to_render_position (l : Line) (pos : Nat) : Nat :=
  l.render_position pos

/-- Specification-side tab expansion: each non-tab character contributes one
cell, each tab appends spaces up to the next multiple of TAB_STOP. -/
def expandStep (r : List Char) (c : Char) : List Char :=
  if c = '\t' then r ++ List.replicate (TAB_STOP - r.length % TAB_STOP) ' '
  else r ++ [c]

/-- Tab expansion of a whole string as described by the spec. -/
def tabExpansion (s : List Char) : List Char :=
  s.foldl expandStep []

/-- Cursor directions handled by Buffer::move_cursor. -/
inductive Motion where
  | Up | Down | Left | Right | PgUp | PgDn | Home | End
deriving DecidableEq, Repr

/-- Input events produced by Terminal::read_key (byte payloads kept as
natural numbers). -/
inductive Key where
  | Printable (c : Nat)
  | Move (m : Motion)
  | Control (c : Nat)
  | Delete
  | Backspace
  | Newline
  | Escape
  | Tab
deriving DecidableEq, Repr

/-- Document buffer: lines, logical cursor, derived render column and the
viewport offsets (the file name is outside the verified core). -/
structure Buffer where
  render_col : Nat := 0
  cursor_col : Nat := 0
  cursor_row : Nat := 0
  lines : List Line := []
  row_offset : Nat := 0
  col_offset : Nat := 0
  dirty : Bool := false
deriving DecidableEq, Repr

/-- Buffer::new (Default). -/
def Buffer.new : Buffer := {}

/-- Buffer::line_count. -/
def Buffer.line_count (b : Buffer) : Nat := b.lines.length

/-- Checked usize subtraction: none models the debug-mode underflow panic;
used at every subtraction site of the source that is not saturating_sub. -/
def checkedSub (a b : Nat) : Option Nat :=
  if b ≤ a then some (a - b) else none

/-- Buffer cursor invariant from the spec: the cursor row is at most the
line count, and when it addresses an existing line the cursor column is at
most that line's logical length. -/
def Buffer.inv (b : Buffer) : Prop :=
  b.cursor_row ≤ b.lines.length ∧
  ∀ line, b.lines.get? b.cursor_row = some line → b.cursor_col ≤ line.len

/-- Trailing clamp of Buffer::move_cursor: cap the column at the target
line's length when the cursor row has a line. -/
def Buffer.clampCol (b1 : Buffer) : Buffer :=
  match b1.lines.get? b1.cursor_row with
  | some row => { b1 with cursor_col := min row.len b1.cursor_col }
  | none => b1

/-- Buffer::move_cursor.  Line indexing and non-saturating subtractions are
checked (none models the panic); the trailing clamp caps the column at the
target line's length. -/
def Buffer.move_cursor (b : Buffer) (m : Motion) (rows cols : Nat) : Option Buffer :=
  (match m with
  | Motion.Up => some { b with cursor_row := b.cursor_row - 1 }
  | Motion.Left =>
    if b.cursor_col ≠ 0 then
      (checkedSub b.cursor_col 1).map fun c => { b with cursor_col := c }
    else if 0 < b.cursor_row then
      (checkedSub b.cursor_row 1).bind fun r =>
        match b.lines.get? r with
        | some line => some { b with cursor_row := r, cursor_col := line.len }
        | none => none
    else some b
  | Motion.Down =>
    some { b with cursor_row := min (b.lines.length - 1) (b.cursor_row + 1) }
  | Motion.Right =>
    match b.lines.get? b.cursor_row with
    | some row =>
      if b.cursor_col < row.len then some { b with cursor_col := b.cursor_col + 1 }
      else
        (checkedSub b.lines.length 1).bind fun lm1 =>
          if b.cursor_row < lm1 then
            some { b with cursor_row := b.cursor_row + 1, cursor_col := 0 }
          else some b
    | none => some b
  | Motion.PgUp => some { b with cursor_row := b.cursor_row - rows }
  | Motion.PgDn =>
    some { b with cursor_row := min (b.lines.length - 1) (b.cursor_row + rows) }
  | Motion.Home => some { b with cursor_col := 0 }
  | Motion.End =>
    (checkedSub cols 1).map fun c => { b with cursor_col := c }).map Buffer.clampCol

/-- Value of render_col recomputed by Buffer::scroll from the line under the
cursor (zero when the cursor row has no line). -/
def Buffer.renderColOf (b : Buffer) : Nat :=
  match b.lines.get? b.cursor_row with
  | some line => line.cursor_to_render_position b.cursor_col
  | none => 0

/-- Buffer::scroll: recompute render_col, then move each offset by exactly
the amount needed to bring the cursor back inside the viewport. -/
def Buffer.scroll (b : Buffer) (rows cols : Nat) : Buffer :=
  let rc := b.renderColOf
  let ro :=
    if b.cursor_row < b.row_offset then b.cursor_row
    else if b.cursor_row ≥ b.row_offset + rows then 1 + b.cursor_row - rows
    else b.row_offset
  let co :=
    if rc < b.col_offset then rc
    else if rc ≥ b.col_offset + cols then 1 + rc - cols
    else b.col_offset
  { b with render_col := rc, row_offset := ro, col_offset := co }

/-- Terminator appended to every frame line: erase to end of line plus a
carriage-return newline. -/
def clearSeq : List Char := '\x1b' :: '[' :: 'K' :: '\r' :: '\n' :: []

/-- Buffer::frame_content: rendered lines after row_offset, padded with
placeholder tildes, each passed through the column window and terminated,
truncated to the requested number of rows. -/
def Buffer.frame_content (b : Buffer) (rows cols : Nat) : List Char :=
  ((((b.lines.drop b.row_offset).map Line.rendered ++
      List.replicate (rows - (b.lines.length - b.row_offset)) ('~' :: [])).map
      (fun line => (line.drop b.col_offset).take cols ++ clearSeq)).take rows).flatten

/-- Vec::insert at an index that is at most the length. -/
def listInsert (n : Nat) (a : α) (l : List α) : List α :=
  l.take n ++ a :: l.drop n

/-- Buffer::insert_row: ignore an out-of-range index, otherwise insert a new
line and mark the buffer dirty. -/
def Buffer.insert_row (b : Buffer) (index : Nat) (s : List Char) : Buffer :=
  if index > b.lines.length then b
  else { b with lines := listInsert index (Line.new s) b.lines, dirty := true }

/-- Buffer::append_row. -/
def Buffer.append_row (b : Buffer) (s : List Char) : Buffer :=
  b.insert_row b.lines.length s

/-- Cursor advance shared by both branches of Buffer::insert_new_line:
move to column zero of the next row. -/
def newLineAdvance (b2 : Buffer) : Buffer :=
  { b2 with cursor_row := b2.cursor_row + 1, cursor_col := 0 }

/-- Buffer::insert_new_line: split the current line at the cursor column (or
insert an empty row when the column is zero) and move the cursor to column
zero of the next row.  Indexing the current line panics when the cursor row
is out of bounds, modelled as none. -/
def Buffer.insert_new_line (b : Buffer) : Option Buffer :=
  if b.cursor_col = 0 then
    some (newLineAdvance (b.insert_row b.cursor_row []))
  else
    (b.lines.get? b.cursor_row).bind fun line =>
      (line.split_off b.cursor_col).map fun st =>
        newLineAdvance
          ((({ b with lines := b.lines.set b.cursor_row st.1 } : Buffer)).insert_row
            (b.cursor_row + 1) st.2)

/-- Tail of Buffer::insert_char after the optional row append: insert the
character at the cursor column of the cursor line and advance the column. -/
def insertCharCore (b0 : Buffer) (ch : Char) : Option Buffer :=
  match b0.lines.get? b0.cursor_row with
  | none => some b0
  | some line =>
    (line.insert b0.cursor_col ch).map fun line2 =>
      { b0 with lines := b0.lines.set b0.cursor_row line2,
                cursor_col := b0.cursor_col + 1, dirty := true }

/-- Buffer::insert_char: append an empty row when the cursor sits one past
the last row, then insert at the cursor column and advance the column. -/
def Buffer.insert_char (b : Buffer) (ch : Char) : Option Buffer :=
  insertCharCore
    (if b.cursor_row = b.lines.length then b.insert_row b.cursor_row [] else b) ch

/-- Buffer::delete_row: remove the cursor row when it exists and mark the
buffer dirty. -/
def Buffer.delete_row (b1 : Buffer) : Buffer :=
  if b1.cursor_row < b1.lines.length then
    { b1 with lines := b1.lines.eraseIdx b1.cursor_row, dirty := true }
  else b1

/-- Merge branch of Buffer::delete_char at column zero: set the cursor
column to the previous row's length, append the current row's content to
the previous row, delete the current row and move the cursor up. -/
def deleteMergeStep (b : Buffer) (prev line : Line) : Buffer :=
  let m := Buffer.delete_row { b with
    lines := b.lines.set (b.cursor_row - 1) (prev.push_str line.content),
    cursor_col := prev.len }
  { m with cursor_row := m.cursor_row - 1 }

/-- Buffer::delete_char: no-op at the document start; delete the character
before the cursor, or merge the current row into the previous one when the
cursor is at column zero. -/
def Buffer.delete_char (b : Buffer) : Option Buffer :=
  if b.cursor_row = 0 ∧ b.cursor_col = 0 then some b
  else
    match b.lines.get? b.cursor_row with
    | none => some b
    | some line =>
      if 0 < b.cursor_col then
        (line.remove (b.cursor_col - 1)).map fun line2 =>
          { b with lines := b.lines.set b.cursor_row line2,
                   cursor_col := b.cursor_col - 1, dirty := true }
      else
        (b.lines.get? (b.cursor_row - 1)).map fun prev =>
          deleteMergeStep b prev line

/-- Wrapping usize subtraction of release builds. -/
def wrapSub64 (a b : Nat) : Nat :=
  (((a : Int) - (b : Int)) % (2 ^ 64 : Int)).toNat

/-- Elements produced by cycling a list, skipping s elements and taking n
(the row-visiting iterator of the search functions); empty when the list is
empty. -/
def cycleSkipTake (L : List α) (s n : Nat) : List α :=
  if h : L.length = 0 then []
  else
    (List.range n).map fun i =>
      L.get ⟨(s + i) % L.length, Nat.mod_lt _ (Nat.pos_of_ne_zero h)⟩

/-- Match loop of Buffer::find_forward inside one row: skip matches before
the cursor column on the cursor row, consume the skip-once flag on the
first eligible match, and return the first remaining one. -/
def scanRowFwd (crow ccol row : Nat) : List Nat → Bool → Option (Nat × Nat) × Bool
  | [], skip => (none, skip)
  | c :: rest, skip =>
    if row = crow ∧ c < ccol then scanRowFwd crow ccol row rest skip
    else if skip then scanRowFwd crow ccol row rest false
    else (some (row, c), skip)

/-- Row loop of Buffer::find_forward: convert each rendered match offset to
a logical column and delegate to the in-row scan, threading the skip-once
flag between rows. -/
def scanLinesFwd (crow ccol : Nat) (query : List Char) :
    List (Nat × Line) → Bool → Option (Nat × Nat)
  | [], _ => none
  | (row, line) :: rest, skip =>
    let cols := (line.match_indices query).map line.render_to_cursor_position
    match scanRowFwd crow ccol row cols skip with
    | (some res, _) => some res
    | (none, skip2) => scanLinesFwd crow ccol query rest skip2

/-- Buffer::find_forward: visit the rows cyclically starting at the cursor
row and return the first eligible match, or the cursor position if none. -/
def Buffer.find_forward (b : Buffer) (query : List Char) (skip_once : Bool) :
    Nat × Nat :=
  let idx_lines := cycleSkipTake b.lines.enum b.cursor_row b.lines.length
  match scanLinesFwd b.cursor_row b.cursor_col query idx_lines skip_once with
  | some res => res
  | none => (b.cursor_row, b.cursor_col)

/-- Match loop of Buffer::find_reverse inside one row (matches visited right
to left, matches after the cursor column on the cursor row skipped). -/
def scanRowRev (crow ccol row : Nat) : List Nat → Bool → Option (Nat × Nat) × Bool
  | [], skip => (none, skip)
  | c :: rest, skip =>
    if row = crow ∧ c > ccol then scanRowRev crow ccol row rest skip
    else if skip then scanRowRev crow ccol row rest false
    else (some (row, c), skip)

/-- Row loop of Buffer::find_reverse. -/
def scanLinesRev (crow ccol : Nat) (query : List Char) :
    List (Nat × Line) → Bool → Option (Nat × Nat)
  | [], _ => none
  | (row, line) :: rest, skip =>
    let cols := ((line.match_indices query).reverse).map line.render_to_cursor_position
    match scanRowRev crow ccol row cols skip with
    | (some res, _) => some res
    | (none, skip2) => scanLinesRev crow ccol query rest skip2

/-- Buffer::find_reverse: visit the rows cyclically in reverse starting at
the cursor row (the skip count of the source is the wrapping subtraction
len - cursor_row - 1) and return the first eligible match, or the cursor
position if none. -/
def Buffer.find_reverse (b : Buffer) (query : List Char) (skip_once : Bool) :
    Nat × Nat :=
  let s := wrapSub64 (wrapSub64 b.lines.length b.cursor_row) 1
  let idx_lines := cycleSkipTake b.lines.enum.reverse s b.lines.length
  match scanLinesRev b.cursor_row b.cursor_col query idx_lines skip_once with
  | some res => res
  | none => (b.cursor_row, b.cursor_col)

/-- Decoding of a plain (non-escape) byte by Terminal::read_key. -/
def plainKey (k : Nat) : Key :=
  if k = 127 then Key.Backspace
  else if k = 13 then Key.Newline
  else if k = 9 then Key.Tab
  else if k < 32 then Key.Control (k + 64)
  else Key.Printable k

/-- Speculative bytes collected after an escape byte: the remaining pending
bytes (most recently pushed first, not consumed by the borrow), then reads
from the input, padded with none once the input times out, truncated to
three. -/
def seqOf (ks input : List Nat) : List (Option Nat) :=
  ((ks.map some) ++ (input.map some) ++ [none, none, none]).take 3

/-- Number of input bytes consumed while collecting the escape sequence. -/
def seqConsumed (ks input : List Nat) : Nat :=
  min (3 - min 3 ks.length) input.length

/-- Escape sequence decoding table of Terminal::read_key, arms in source
order; the captured third element of the two-byte arms is the speculatively
read pending byte; none selects the unknown-sequence fallback. -/
def decodeSeq : List (Option Nat) → Option (Key × Option Nat)
  | [none, none, none] => some (Key.Escape, none)
  | [some 91, some 65, p] => some (Key.Move Motion.Up, p)
  | [some 91, some 66, p] => some (Key.Move Motion.Down, p)
  | [some 91, some 67, p] => some (Key.Move Motion.Right, p)
  | [some 91, some 68, p] => some (Key.Move Motion.Left, p)
  | [some 91, some 53, some 126] => some (Key.Move Motion.PgUp, none)
  | [some 91, some 54, some 126] => some (Key.Move Motion.PgDn, none)
  | [some 91, some 49, some 126] => some (Key.Move Motion.Home, none)
  | [some 91, some 55, some 126] => some (Key.Move Motion.Home, none)
  | [some 91, some 79, some 72] => some (Key.Move Motion.Home, none)
  | [some 91, some 72, p] => some (Key.Move Motion.Home, p)
  | [some 91, some 52, some 126] => some (Key.Move Motion.End, none)
  | [some 91, some 56, some 126] => some (Key.Move Motion.End, none)
  | [some 91, some 79, some 70] => some (Key.Move Motion.End, none)
  | [some 91, some 70, p] => some (Key.Move Motion.End, p)
  | [some 91, some 51, some 126] => some (Key.Delete, none)
  | _ => none

/-- Terminal::read_key over the pending-byte stack (head = most recently
pushed byte) and the input byte stream.  Returns the decoded event together
with the new stack and the remaining input; none models blocking forever on
an empty stream.  The unknown-sequence fallback clears the stack, refills
it with the collected bytes in replay order and re-invokes the decoder; the
fuel dominates the recursion depth because every re-invocation has consumed
at least the escape byte. -/
def readKeyAux : Nat → List Nat → List Nat → Option (Key × List Nat × List Nat)
  | 0, _, _ => none
  | fuel+1, ks, input =>
    let first : Option (Nat × List Nat × List Nat) :=
      match ks, input with
      | k :: ks1, inp => some (k, ks1, inp)
      | [], k :: input1 => some (k, [], input1)
      | [], [] => none
    match first with
    | none => none
    | some (k, ks1, input1) =>
      if k = 27 then
        let seq := seqOf ks1 input1
        let input2 := input1.drop (seqConsumed ks1 input1)
        match decodeSeq seq with
        | some (key, pending) =>
          let ksOut := match pending with | some p => p :: ks1 | none => ks1
          some (key, ksOut, input2)
        | none => readKeyAux fuel (seq.filterMap id) input2
      else some (plainKey k, ks1, input1)

/-- Terminal::read_key with enough fuel for its replay recursion. -/
def read_key (ks input : List Nat) : Option (Key × List Nat × List Nat) :=
  readKeyAux (ks.length + input.length + 1) ks input

/-! ### Tab expansion: the update loop equals the specified expansion -/

theorem padLoop_eq (fuel : Nat) :
    ∀ r : List Char, (TAB_STOP - r.length % TAB_STOP) % TAB_STOP ≤ fuel →
      padLoop fuel r =
        r ++ List.replicate ((TAB_STOP - r.length % TAB_STOP) % TAB_STOP) ' ' := by
  induction fuel with
  | zero =>
    intro r h
    have h0 : (TAB_STOP - r.length % TAB_STOP) % TAB_STOP = 0 := Nat.le_zero.mp h
    simp [padLoop, h0]
  | succ fuel ih =>
    intro r h
    by_cases h0 : r.length % TAB_STOP = 0
    · have hz : (TAB_STOP - r.length % TAB_STOP) % TAB_STOP = 0 := by
        simp only [TAB_STOP] at h0 ⊢; omega
      rw [hz]
      simp [padLoop, h0]
    · have hlen : (r ++ [' ']).length = r.length + 1 := by simp
      have harg : (TAB_STOP - (r ++ [' ']).length % TAB_STOP) % TAB_STOP ≤ fuel := by
        rw [hlen]; simp only [TAB_STOP] at h h0 ⊢; omega
      rw [padLoop, if_neg h0, ih _ harg, hlen]
      have hstep : (TAB_STOP - r.length % TAB_STOP) % TAB_STOP
          = (TAB_STOP - (r.length + 1) % TAB_STOP) % TAB_STOP + 1 := by
        simp only [TAB_STOP] at h0 ⊢; omega
      rw [hstep, List.append_assoc]
      simp [List.replicate_succ]

theorem renderStep_eq_expandStep : renderStep = expandStep := by
  funext r c
  unfold renderStep expandStep
  by_cases hc : c = '\t'
  · have hfuel : (TAB_STOP - (r ++ [' ']).length % TAB_STOP) % TAB_STOP ≤ TAB_STOP :=
      le_of_lt (Nat.mod_lt _ (by norm_num [TAB_STOP]))
    have hlen : (r ++ [' ']).length = r.length + 1 := by simp
    rw [if_pos hc, if_pos hc, padLoop_eq _ _ hfuel, hlen]
    have hstep : TAB_STOP - r.length % TAB_STOP
        = (TAB_STOP - (r.length + 1) % TAB_STOP) % TAB_STOP + 1 := by
      simp only [TAB_STOP]; omega
    rw [hstep, List.append_assoc]
    simp [List.replicate_succ]
  · simp [hc]

theorem update_eq_tabExpansion : Line.update = tabExpansion := by
  funext s
  unfold Line.update tabExpansion
  rw [renderStep_eq_expandStep]

theorem expandStep_length (r : List Char) (c : Char) :
    (expandStep r c).length = rx_step r.length c := by
  unfold expandStep rx_step
  by_cases hc : c = '\t'
  · rw [if_pos hc, if_pos hc]
    simp only [List.length_append, List.length_replicate, TAB_STOP]
    omega
  · rw [if_neg hc, if_neg hc]
    simp

theorem foldl_expandStep_length (s : List Char) :
    ∀ r : List Char, (s.foldl expandStep r).length = s.foldl rx_step r.length := by
  induction s with
  | nil => intro r; rfl
  | cons c s ih =>
    intro r
    simp only [List.foldl_cons]
    rw [ih, expandStep_length]

theorem render_position_take_succ (l : Line) (pos : Nat) (c : Char)
    (hc : l.actual.get? pos = some c) :
    l.render_position (pos + 1) = rx_step (l.render_position pos) c := by
  have hc2 : l.actual[pos]? = some c := by
    rw [← List.get?_eq_getElem?]; exact hc
  unfold Line.render_position
  rw [List.take_succ, hc2]
  simp [List.foldl_append]

/-- C1: after construction and after every mutation (insert, remove,
push_str, split_off) the rendered text is the tab-expansion of the logical
text with tab stop 8: each non-tab character contributes exactly one
rendered cell, each tab advances the rendered position to the next multiple
of 8, the rendered length is the rendered position of the text's end, and
for the line "a\tb" the rendered column of logical offset 2 is 8 and the
rendered length is 9. -/
theorem C1_rendered_is_tab_expansion :
    (∀ s, (Line.new s).rendered = tabExpansion (Line.new s).actual)
  ∧ (∀ l pos c l2, Line.insert l pos c = some l2 →
      l2.rendered = tabExpansion l2.actual)
  ∧ (∀ l pos l2, Line.remove l pos = some l2 →
      l2.rendered = tabExpansion l2.actual)
  ∧ (∀ l s, (Line.push_str l s).rendered = tabExpansion (Line.push_str l s).actual)
  ∧ (∀ l idx l2 t, Line.split_off l idx = some (l2, t) →
      l2.rendered = tabExpansion l2.actual)
  ∧ (∀ (l : Line) (pos : Nat) (c : Char), l.actual.get? pos = some c →
      (c ≠ '\t' → l.render_position (pos + 1) = l.render_position pos + 1)
    ∧ (c = '\t' → l.render_position (pos + 1) % TAB_STOP = 0
        ∧ l.render_position pos < l.render_position (pos + 1)
        ∧ l.render_position (pos + 1) ≤ l.render_position pos + TAB_STOP))
  ∧ (∀ s, (tabExpansion s).length = (Line.new s).render_position s.length)
  ∧ (Line.new ('a' :: '\t' :: 'b' :: [])).render_position 2 = 8
  ∧ ((Line.new ('a' :: '\t' :: 'b' :: [])).rendered).length = 9 := by
  refine ⟨?_, ?_, ?_, ?_, ?_, ?_, ?_, by decide, by decide⟩
  · intro s; simp [Line.new, update_eq_tabExpansion]
  · intro l pos c l2 h
    unfold Line.insert at h
    split at h
    · cases h; simp [Line.new, update_eq_tabExpansion]
    · cases h
  · intro l pos l2 h
    unfold Line.remove at h
    split at h
    · cases h; simp [Line.new, update_eq_tabExpansion]
    · cases h
  · intro l s; simp [Line.push_str, Line.new, update_eq_tabExpansion]
  · intro l idx l2 t h
    unfold Line.split_off at h
    split at h
    · cases h; simp [Line.new, update_eq_tabExpansion]
    · cases h
  · intro l pos c hc
    have hstep := render_position_take_succ l pos c hc
    constructor
    · intro hne
      rw [hstep]; unfold rx_step; rw [if_neg hne]
    · intro htab
      rw [hstep]; unfold rx_step; rw [if_pos htab]
      have hm : (l.render_position pos) % TAB_STOP < TAB_STOP :=
        Nat.mod_lt _ (by norm_num [TAB_STOP])
      simp only [TAB_STOP] at hm ⊢
      omega
  · intro s
    unfold tabExpansion Line.render_position
    simp only [Line.new, List.take_length]
    exact foldl_expandStep_length s []

theorem C1_witness :
    Line.insert (Line.new []) 0 'a' = some (Line.new ('a' :: [])) ∧
    (Line.new ('a' :: [])).rendered = tabExpansion (Line.new ('a' :: [])).actual := by
  refine ⟨by decide, ?_⟩
  exact C1_rendered_is_tab_expansion.2.1 (Line.new []) 0 'a' _ (by decide)

/-! ### Round trip of the column maps -/

theorem rx_step_lt (rx : Nat) (c : Char) : rx < rx_step rx c := by
  unfold rx_step
  split
  · have : rx % TAB_STOP < TAB_STOP := Nat.mod_lt _ (by norm_num [TAB_STOP])
    simp only [TAB_STOP] at this ⊢
    omega
  · omega

theorem foldl_rx_step_le (s : List Char) : ∀ rx : Nat, rx ≤ s.foldl rx_step rx := by
  induction s with
  | nil => intro rx; exact le_refl rx
  | cons c s ih =>
    intro rx
    simp only [List.foldl_cons]
    exact le_trans (le_of_lt (rx_step_lt rx c)) (ih _)

theorem rtc_main (s : List Char) :
    ∀ (p cx rx : Nat), p ≤ s.length →
      rtcAux s ((s.take p).foldl rx_step rx) cx rx = cx + p := by
  induction s with
  | nil =>
    intro p cx rx hp
    have : p = 0 := by simpa using hp
    subst this
    simp [rtcAux]
  | cons c rest ih =>
    intro p cx rx hp
    cases p with
    | zero =>
      simp only [List.take_zero, List.foldl_nil, rtcAux]
      rw [if_pos (rx_step_lt rx c)]
      omega
    | succ q =>
      have hq : q ≤ rest.length := by simpa using hp
      simp only [List.take_succ_cons, List.foldl_cons, rtcAux]
      rw [if_neg (not_lt.mpr (foldl_rx_step_le _ _))]
      rw [ih q (cx + 1) (rx_step rx c) hq]
      omega

/-- C2: for every logical offset p within the line, converting the logical
offset to a rendered column with render_position and back with
render_to_cursor_position returns p; the rendered column of a logical
offset is always the start of that character's rendered range, so it never
lands inside an expanded tab's padding. -/
theorem C2_render_round_trip (l : Line) (p : Nat) (hp : p ≤ l.len) :
    l.render_to_cursor_position (l.render_position p) = p := by
  unfold Line.render_to_cursor_position Line.render_position
  simpa using rtc_main l.actual p 0 0 hp

theorem C2_witness :
    2 ≤ (Line.new ('a' :: '\t' :: 'b' :: [])).len ∧
    (Line.new ('a' :: '\t' :: 'b' :: [])).render_to_cursor_position
      ((Line.new ('a' :: '\t' :: 'b' :: [])).render_position 2) = 2 := by
  exact ⟨by decide, C2_render_round_trip _ 2 (by decide)⟩

/-! ### Search: the concrete forward-search scenario -/

/-- C4: in the document ["foo", "bar", "foo"] with the cursor at row 0
column 1, forward search for "foo" skips the match of row 0 (it starts
before the cursor column) and returns the match at row 2 column 0. -/
theorem C4_find_forward_example :
    Buffer.find_forward
      { lines := [Line.new ('f' :: 'o' :: 'o' :: []), Line.new ('b' :: 'a' :: 'r' :: []),
                  Line.new ('f' :: 'o' :: 'o' :: [])],
        cursor_row := 0, cursor_col := 1 }
      ('f' :: 'o' :: 'o' :: []) false = (2, 0) := by
  decide

/-! ### Search with no match is a no-op -/

theorem scanLinesFwd_all_empty (crow ccol : Nat) (query : List Char) :
    ∀ (pairs : List (Nat × Line)) (skip : Bool),
      (∀ p ∈ pairs, Line.match_indices p.2 query = []) →
      scanLinesFwd crow ccol query pairs skip = none := by
  intro pairs
  induction pairs with
  | nil => intro skip _; rfl
  | cons p rest ih =>
    intro skip h
    obtain ⟨row, line⟩ := p
    have hline : Line.match_indices line query = [] :=
      h _ (List.mem_cons_self _ _)
    simp only [scanLinesFwd, hline, List.map_nil, scanRowFwd]
    exact ih _ (fun q hq => h q (List.mem_cons_of_mem _ hq))

theorem scanLinesRev_all_empty (crow ccol : Nat) (query : List Char) :
    ∀ (pairs : List (Nat × Line)) (skip : Bool),
      (∀ p ∈ pairs, Line.match_indices p.2 query = []) →
      scanLinesRev crow ccol query pairs skip = none := by
  intro pairs
  induction pairs with
  | nil => intro skip _; rfl
  | cons p rest ih =>
    intro skip h
    obtain ⟨row, line⟩ := p
    have hline : Line.match_indices line query = [] :=
      h _ (List.mem_cons_self _ _)
    simp only [scanLinesRev, hline, List.reverse_nil, List.map_nil, scanRowRev]
    exact ih _ (fun q hq => h q (List.mem_cons_of_mem _ hq))

theorem cycleSkipTake_mem {α : Type _} (L : List α) (s n : Nat) :
    ∀ x ∈ cycleSkipTake L s n, x ∈ L := by
  intro x hx
  unfold cycleSkipTake at hx
  split at hx
  · simp at hx
  · simp only [List.mem_map] at hx
    obtain ⟨i, _, rfl⟩ := hx
    exact List.get_mem _ _ _

theorem enum_mem_snd {α : Type _} {L : List α} {p : Nat × α}
    (hp : p ∈ L.enum) : p.2 ∈ L := by
  rw [List.mem_enum_iff_getElem?] at hp
  exact List.getElem?_mem hp

/-- C3: for every buffer (the empty document included), cursor satisfying
the invariant, query and skip flag, if the query matches nowhere in any
line's rendered text then both find_forward and find_reverse return exactly
the current cursor position; the functions are pure (the buffer is not an
output), so the buffer is unchanged, and (the wrapping subtraction of the
reverse skip count being modelled explicitly) no error is raised. -/
theorem C3_no_match_is_noop (b : Buffer) (query : List Char) (skip : Bool)
    (hinv : b.inv)
    (hq : ∀ l ∈ b.lines, Line.match_indices l query = []) :
    b.find_forward query skip = (b.cursor_row, b.cursor_col) ∧
    b.find_reverse query skip = (b.cursor_row, b.cursor_col) := by
  constructor
  · have hnone :
        scanLinesFwd b.cursor_row b.cursor_col query
          (cycleSkipTake b.lines.enum b.cursor_row b.lines.length) skip = none :=
      scanLinesFwd_all_empty _ _ _ _ _
        (fun p hp => hq p.2 (enum_mem_snd (cycleSkipTake_mem _ _ _ p hp)))
    simp [Buffer.find_forward, hnone]
  · have hnone :
        scanLinesRev b.cursor_row b.cursor_col query
          (cycleSkipTake b.lines.enum.reverse
            (wrapSub64 (wrapSub64 b.lines.length b.cursor_row) 1)
            b.lines.length) skip = none :=
      scanLinesRev_all_empty _ _ _ _ _
        (fun p hp => hq p.2
          (enum_mem_snd (List.mem_reverse.mp (cycleSkipTake_mem _ _ _ p hp))))
    simp [Buffer.find_reverse, hnone]

theorem C3_witness :
    Buffer.new.inv ∧
    (∀ l ∈ Buffer.new.lines, Line.match_indices l ('x' :: []) = []) ∧
    Buffer.new.find_forward ('x' :: []) true = (0, 0) ∧
    Buffer.new.find_reverse ('x' :: []) true = (0, 0) := by
  have hinv : Buffer.new.inv := by
    constructor
    · exact Nat.le_refl 0
    · intro line h
      simp [Buffer.new] at h
  have hq : ∀ l ∈ Buffer.new.lines, Line.match_indices l ('x' :: []) = [] := by
    intro l hl
    simp [Buffer.new] at hl
  have h := C3_no_match_is_noop Buffer.new ('x' :: []) true hinv hq
  exact ⟨hinv, hq, h.1, h.2⟩

/-! ### Scrolling keeps the cursor inside the viewport, minimally -/

/-- C5: after scroll the cursor row lies inside the row window and the
recomputed render column inside the column window, and when the cursor was
already inside both windows the offsets do not move. -/
theorem C5_scroll_bounds (b : Buffer) (rows cols : Nat)
    (hrows : 1 ≤ rows) (hcols : 1 ≤ cols) :
    (b.scroll rows cols).render_col = b.renderColOf ∧
    (b.scroll rows cols).row_offset ≤ b.cursor_row ∧
    b.cursor_row < (b.scroll rows cols).row_offset + rows ∧
    (b.scroll rows cols).col_offset ≤ b.renderColOf ∧
    b.renderColOf < (b.scroll rows cols).col_offset + cols ∧
    ((b.row_offset ≤ b.cursor_row ∧ b.cursor_row < b.row_offset + rows ∧
      b.col_offset ≤ b.renderColOf ∧ b.renderColOf < b.col_offset + cols) →
      (b.scroll rows cols).row_offset = b.row_offset ∧
      (b.scroll rows cols).col_offset = b.col_offset) := by
  refine ⟨rfl, ?_, ?_, ?_, ?_, ?_⟩
  · show (if b.cursor_row < b.row_offset then b.cursor_row
      else if b.cursor_row ≥ b.row_offset + rows then 1 + b.cursor_row - rows
      else b.row_offset) ≤ b.cursor_row
    split_ifs <;> omega
  · show b.cursor_row < (if b.cursor_row < b.row_offset then b.cursor_row
      else if b.cursor_row ≥ b.row_offset + rows then 1 + b.cursor_row - rows
      else b.row_offset) + rows
    split_ifs <;> omega
  · show (if b.renderColOf < b.col_offset then b.renderColOf
      else if b.renderColOf ≥ b.col_offset + cols then 1 + b.renderColOf - cols
      else b.col_offset) ≤ b.renderColOf
    split_ifs <;> omega
  · show b.renderColOf < (if b.renderColOf < b.col_offset then b.renderColOf
      else if b.renderColOf ≥ b.col_offset + cols then 1 + b.renderColOf - cols
      else b.col_offset) + cols
    split_ifs <;> omega
  · intro hin
    obtain ⟨h1, h2, h3, h4⟩ := hin
    constructor
    · show (if b.cursor_row < b.row_offset then b.cursor_row
        else if b.cursor_row ≥ b.row_offset + rows then 1 + b.cursor_row - rows
        else b.row_offset) = b.row_offset
      split_ifs <;> omega
    · show (if b.renderColOf < b.col_offset then b.renderColOf
        else if b.renderColOf ≥ b.col_offset + cols then 1 + b.renderColOf - cols
        else b.col_offset) = b.col_offset
      split_ifs <;> omega

theorem C5_witness :
    1 ≤ 1 ∧
    ((Buffer.new.scroll 1 1).render_col = Buffer.new.renderColOf ∧
     (Buffer.new.scroll 1 1).row_offset ≤ Buffer.new.cursor_row ∧
     Buffer.new.cursor_row < (Buffer.new.scroll 1 1).row_offset + 1 ∧
     (Buffer.new.scroll 1 1).col_offset ≤ Buffer.new.renderColOf ∧
     Buffer.new.renderColOf < (Buffer.new.scroll 1 1).col_offset + 1 ∧
     ((Buffer.new.row_offset ≤ Buffer.new.cursor_row ∧
       Buffer.new.cursor_row < Buffer.new.row_offset + 1 ∧
       Buffer.new.col_offset ≤ Buffer.new.renderColOf ∧
       Buffer.new.renderColOf < Buffer.new.col_offset + 1) →
       (Buffer.new.scroll 1 1).row_offset = Buffer.new.row_offset ∧
       (Buffer.new.scroll 1 1).col_offset = Buffer.new.col_offset)) :=
  ⟨Nat.le_refl 1, C5_scroll_bounds Buffer.new 1 1 (Nat.le_refl 1) (Nat.le_refl 1)⟩

/-! ### Frame content -/

/-- Source of output row i of frame_content: the rendered text of line
row_offset + i, or the tilde placeholder beyond the document. -/
def Buffer.srcLine (b : Buffer) (i : Nat) : List Char :=
  match b.lines.get? (b.row_offset + i) with
  | some line => line.rendered
  | none => '~' :: []

theorem frame_take_eq (b : Buffer) (rows : Nat) :
    ((b.lines.drop b.row_offset).map Line.rendered ++
      List.replicate (rows - (b.lines.length - b.row_offset)) ('~' :: [])).take rows
    = (List.range rows).map b.srcLine := by
  apply List.ext_getElem
  · simp only [List.length_take, List.length_append, List.length_map,
      List.length_drop, List.length_replicate, List.length_range]
    omega
  · intro i h1 h2
    simp only [List.length_take, List.length_append, List.length_map,
      List.length_drop, List.length_replicate] at h1
    simp only [List.length_range] at h2
    rw [List.getElem_take]
    rw [List.getElem_map, List.getElem_range]
    by_cases hi : i < b.lines.length - b.row_offset
    · rw [List.getElem_append_left (by simpa using hi)]
      have hro : b.row_offset + i < b.lines.length := by omega
      rw [List.getElem_map, List.getElem_drop]
      unfold Buffer.srcLine
      rw [List.get?_eq_getElem?, List.getElem?_eq_getElem hro]
    · have hge : (b.lines.drop b.row_offset).length ≤ i := by
        simp only [List.length_drop]; omega
      rw [List.getElem_append_right (by simpa using hge)]
      rw [List.getElem_replicate]
      unfold Buffer.srcLine
      have hnone : b.lines.get? (b.row_offset + i) = none := by
        rw [List.get?_eq_getElem?, List.getElem?_eq_none]
        omega
      rw [hnone]

/-- C6 counterexample: for a buffer whose column offset is 2, the
placeholder row below the single-line document passes through the same
column window as content rows, so the second output line is empty rather
than the claimed single tilde. -/
theorem C6_counterexample :
    Buffer.frame_content
      { lines := [Line.new ('f' :: 'o' :: 'o' :: [])], col_offset := 2 } 2 2
      = 'o' :: (clearSeq ++ clearSeq) ∧
    'o' :: (clearSeq ++ clearSeq) ≠ 'o' :: (clearSeq ++ '~' :: clearSeq) := by
  constructor
  · decide
  · decide

/-- C6 amended: frame_content produces exactly the requested number of
output lines; output line i is the column window (drop col_offset, take
cols) of the rendered text of line row_offset + i followed by the
line-clear terminator, and beyond the document's last row the placeholder
tilde is passed through the same column window (hence a single tilde only
when col_offset is zero and cols is positive). -/
theorem C6_frame_content_amended (b : Buffer) (rows cols : Nat) :
    b.frame_content rows cols =
      ((List.range rows).map
        (fun i => ((b.srcLine i).drop b.col_offset).take cols ++ clearSeq)).flatten := by
  unfold Buffer.frame_content
  rw [← List.map_take, frame_take_eq, List.map_map]
  rfl

/-! ### Key decoding -/

theorem readKeyAux_esc (fuel : Nat) (input1 : List Nat) :
    readKeyAux (fuel + 1) [] (27 :: input1) =
      (match decodeSeq (seqOf [] input1) with
      | some (key, pending) =>
        some (key, (match pending with | some p => p :: [] | none => []),
              input1.drop (seqConsumed [] input1))
      | none =>
        readKeyAux fuel ((seqOf [] input1).filterMap id)
          (input1.drop (seqConsumed [] input1))) := rfl

theorem seqConsumed_cons3 (x y z : Nat) (rest : List Nat) :
    seqConsumed [] (x :: y :: z :: rest) = 3 := by
  unfold seqConsumed
  simp

/-- C7: of the fifteen escape sequences listed by the claim, thirteen decode
as stated (consuming exactly the sequence and pushing back a speculatively
read extra byte), but the two sequences \x1bOH and \x1bOF fall through to
the unknown-sequence fallback, which replays their bytes so that read_key
returns the printable letter O (byte 79) instead of Home or End. -/
theorem C7_read_key_sequences :
    (∀ x r, read_key [] (27 :: 91 :: 65 :: x :: r) =
      some (Key.Move Motion.Up, x :: [], r))
  ∧ read_key [] (27 :: 91 :: 65 :: []) = some (Key.Move Motion.Up, [], [])
  ∧ (∀ x r, read_key [] (27 :: 91 :: 66 :: x :: r) =
      some (Key.Move Motion.Down, x :: [], r))
  ∧ read_key [] (27 :: 91 :: 66 :: []) = some (Key.Move Motion.Down, [], [])
  ∧ (∀ x r, read_key [] (27 :: 91 :: 67 :: x :: r) =
      some (Key.Move Motion.Right, x :: [], r))
  ∧ read_key [] (27 :: 91 :: 67 :: []) = some (Key.Move Motion.Right, [], [])
  ∧ (∀ x r, read_key [] (27 :: 91 :: 68 :: x :: r) =
      some (Key.Move Motion.Left, x :: [], r))
  ∧ read_key [] (27 :: 91 :: 68 :: []) = some (Key.Move Motion.Left, [], [])
  ∧ (∀ rest, read_key [] (27 :: 91 :: 53 :: 126 :: rest) =
      some (Key.Move Motion.PgUp, [], rest))
  ∧ (∀ rest, read_key [] (27 :: 91 :: 54 :: 126 :: rest) =
      some (Key.Move Motion.PgDn, [], rest))
  ∧ (∀ rest, read_key [] (27 :: 91 :: 49 :: 126 :: rest) =
      some (Key.Move Motion.Home, [], rest))
  ∧ (∀ rest, read_key [] (27 :: 91 :: 55 :: 126 :: rest) =
      some (Key.Move Motion.Home, [], rest))
  ∧ (∀ x r, read_key [] (27 :: 91 :: 72 :: x :: r) =
      some (Key.Move Motion.Home, x :: [], r))
  ∧ read_key [] (27 :: 91 :: 72 :: []) = some (Key.Move Motion.Home, [], [])
  ∧ (∀ rest, read_key [] (27 :: 91 :: 52 :: 126 :: rest) =
      some (Key.Move Motion.End, [], rest))
  ∧ (∀ rest, read_key [] (27 :: 91 :: 56 :: 126 :: rest) =
      some (Key.Move Motion.End, [], rest))
  ∧ (∀ x r, read_key [] (27 :: 91 :: 70 :: x :: r) =
      some (Key.Move Motion.End, x :: [], r))
  ∧ read_key [] (27 :: 91 :: 70 :: []) = some (Key.Move Motion.End, [], [])
  ∧ (∀ rest, read_key [] (27 :: 91 :: 51 :: 126 :: rest) =
      some (Key.Delete, [], rest))
  ∧ read_key [] (27 :: 79 :: 72 :: []) = some (Key.Printable 79, 72 :: [], [])
  ∧ read_key [] (27 :: 79 :: 70 :: []) = some (Key.Printable 79, 70 :: [], []) := by
  refine ⟨?_, by decide, ?_, by decide, ?_, by decide, ?_, by decide,
          ?_, ?_, ?_, ?_, ?_, by decide, ?_, ?_, ?_, by decide, ?_,
          by decide, by decide⟩ <;>
  · (intros
     unfold read_key
     rw [readKeyAux_esc, seqConsumed_cons3]
     try rfl)

/-! ### Insert and delete are mutual inverses at a cursor inside the text -/

/-- C8: for a cursor addressing an existing line with the column inside the
line, inserting a character and then deleting it restores both the logical
content of the cursor line and the cursor position. -/
theorem C8_insert_delete_round_trip (b : Buffer) (ch : Char)
    (hrow : b.cursor_row < b.lines.length)
    (hcol : ∀ line, b.lines.get? b.cursor_row = some line →
      b.cursor_col ≤ line.len) :
    ∃ b1 b2, b.insert_char ch = some b1 ∧ b1.delete_char = some b2 ∧
      b2.cursor_row = b.cursor_row ∧ b2.cursor_col = b.cursor_col ∧
      (b2.lines.get? b.cursor_row).map Line.content =
        (b.lines.get? b.cursor_row).map Line.content := by
  have hne : b.cursor_row ≠ b.lines.length := Nat.ne_of_lt hrow
  obtain ⟨line, hget⟩ : ∃ line, b.lines.get? b.cursor_row = some line :=
    ⟨_, List.get?_eq_get hrow⟩
  have hlen : b.cursor_col ≤ line.actual.length := hcol line hget
  have htl : (line.actual.take b.cursor_col).length = b.cursor_col := by
    simp [List.length_take]
    omega
  refine ⟨{ b with
      lines := b.lines.set b.cursor_row
        (Line.new (line.actual.take b.cursor_col ++ ch :: line.actual.drop b.cursor_col)),
      cursor_col := b.cursor_col + 1, dirty := true },
    { b with
      lines := (b.lines.set b.cursor_row
          (Line.new (line.actual.take b.cursor_col ++
            ch :: line.actual.drop b.cursor_col))).set b.cursor_row
        (Line.new ((line.actual.take b.cursor_col ++
            ch :: line.actual.drop b.cursor_col).take b.cursor_col ++
          (line.actual.take b.cursor_col ++
            ch :: line.actual.drop b.cursor_col).drop (b.cursor_col + 1))),
      cursor_col := b.cursor_col, dirty := true },
    ?_, ?_, rfl, rfl, ?_⟩
  · unfold Buffer.insert_char
    rw [if_neg hne]
    unfold insertCharCore
    simp only [hget]
    unfold Line.insert
    rw [if_pos hlen]
    rfl
  · unfold Buffer.delete_char
    rw [if_neg (by intro hcontra; exact Nat.succ_ne_zero _ hcontra.2)]
    have hg2 : (({ b with
        lines := b.lines.set b.cursor_row
          (Line.new (line.actual.take b.cursor_col ++ ch :: line.actual.drop b.cursor_col)),
        cursor_col := b.cursor_col + 1, dirty := true } : Buffer)).lines.get?
          b.cursor_row = some
          (Line.new (line.actual.take b.cursor_col ++ ch :: line.actual.drop b.cursor_col)) :=
      List.get?_set_eq_of_lt _ hrow
    simp only [hg2]
    rw [if_pos (Nat.succ_pos b.cursor_col)]
    unfold Line.remove
    rw [if_pos (by
      show b.cursor_col + 1 - 1 <
        (Line.new (line.actual.take b.cursor_col ++
          ch :: line.actual.drop b.cursor_col)).actual.length
      simp [Line.new]
      omega)]
    rfl
  · have htake :
        (line.actual.take b.cursor_col ++ ch :: line.actual.drop b.cursor_col).take
          b.cursor_col = line.actual.take b.cursor_col :=
      List.take_left' htl
    have hdrop :
        (line.actual.take b.cursor_col ++ ch :: line.actual.drop b.cursor_col).drop
          (b.cursor_col + 1) = line.actual.drop b.cursor_col := by
      rw [show line.actual.take b.cursor_col ++ ch :: line.actual.drop b.cursor_col
          = (line.actual.take b.cursor_col ++ (ch :: [])) ++ line.actual.drop b.cursor_col
        by simp]
      exact List.drop_left' (by simp [htl])
    rw [List.get?_set_eq_of_lt _ (by simpa using hrow), hget]
    simp only [Option.map_some, Line.content, Line.new]
    rw [htake, hdrop, List.take_append_drop]
    simp [Line.content]

/-! ### Invariant preservation and totality of cursor motion and editing -/

theorem listInsert_length {α : Type _} (n : Nat) (a : α) (l : List α)
    (hn : n ≤ l.length) : (listInsert n a l).length = l.length + 1 := by
  unfold listInsert
  rw [List.length_append, List.length_take, List.length_cons, List.length_drop]
  omega

theorem listInsert_get?_self {α : Type _} (n : Nat) (a : α) (l : List α)
    (hn : n ≤ l.length) : (listInsert n a l).get? n = some a := by
  unfold listInsert
  have h2 : (l.take n).length = n := by
    rw [List.length_take]
    omega
  rw [List.get?_append_right (le_of_eq h2), h2, Nat.sub_self]
  rfl

theorem clampCol_inv (b1 : Buffer) (h : b1.cursor_row ≤ b1.lines.length) :
    b1.clampCol.inv := by
  unfold Buffer.clampCol
  cases hg : b1.lines.get? b1.cursor_row with
  | none =>
    exact ⟨h, fun line hl => by rw [hg] at hl; cases hl⟩
  | some row =>
    refine ⟨h, ?_⟩
    intro line hl
    show min row.len b1.cursor_col ≤ line.len
    rw [hg] at hl
    cases hl
    exact Nat.min_le_left _ _

theorem move_cursor_total_inv (b : Buffer) (m : Motion) (rows cols : Nat)
    (hinv : b.inv) (hcols : 1 ≤ cols) :
    ∃ b2, b.move_cursor m rows cols = some b2 ∧ b2.inv := by
  obtain ⟨hrow, hcol⟩ := hinv
  unfold Buffer.move_cursor
  cases m <;> dsimp only
  case Up =>
    refine ⟨_, rfl, clampCol_inv _ ?_⟩
    show b.cursor_row - 1 ≤ b.lines.length
    omega
  case Left =>
    by_cases hc : b.cursor_col ≠ 0
    · rw [if_pos hc]
      unfold checkedSub
      rw [if_pos (by omega : 1 ≤ b.cursor_col)]
      exact ⟨_, rfl, clampCol_inv _ hrow⟩
    · rw [if_neg hc]
      by_cases hr : 0 < b.cursor_row
      · rw [if_pos hr]
        unfold checkedSub
        rw [if_pos (by omega : 1 ≤ b.cursor_row)]
        have hlt : b.cursor_row - 1 < b.lines.length := by omega
        obtain ⟨line, hgl⟩ : ∃ line, b.lines.get? (b.cursor_row - 1) = some line :=
          ⟨_, List.get?_eq_get hlt⟩
        simp only [Option.some_bind, hgl]
        refine ⟨_, rfl, clampCol_inv _ ?_⟩
        show b.cursor_row - 1 ≤ b.lines.length
        omega
      · rw [if_neg hr]
        exact ⟨_, rfl, clampCol_inv _ hrow⟩
  case Down =>
    refine ⟨_, rfl, clampCol_inv _ ?_⟩
    show min (b.lines.length - 1) (b.cursor_row + 1) ≤ b.lines.length
    omega
  case Right =>
    cases hg : b.lines.get? b.cursor_row with
    | none => exact ⟨_, rfl, clampCol_inv _ hrow⟩
    | some row =>
      dsimp only
      obtain ⟨hlt, -⟩ := List.get?_eq_some.mp hg
      by_cases hcc : b.cursor_col < row.len
      · rw [if_pos hcc]
        exact ⟨_, rfl, clampCol_inv _ hrow⟩
      · rw [if_neg hcc]
        unfold checkedSub
        rw [if_pos (by omega : 1 ≤ b.lines.length)]
        simp only [Option.some_bind]
        by_cases hlast : b.cursor_row < b.lines.length - 1
        · rw [if_pos hlast]
          refine ⟨_, rfl, clampCol_inv _ ?_⟩
          show b.cursor_row + 1 ≤ b.lines.length
          omega
        · rw [if_neg hlast]
          exact ⟨_, rfl, clampCol_inv _ hrow⟩
  case PgUp =>
    refine ⟨_, rfl, clampCol_inv _ ?_⟩
    show b.cursor_row - rows ≤ b.lines.length
    omega
  case PgDn =>
    refine ⟨_, rfl, clampCol_inv _ ?_⟩
    show min (b.lines.length - 1) (b.cursor_row + rows) ≤ b.lines.length
    omega
  case Home => exact ⟨_, rfl, clampCol_inv _ hrow⟩
  case End =>
    unfold checkedSub
    rw [if_pos hcols]
    exact ⟨_, rfl, clampCol_inv _ hrow⟩

theorem insertCharCore_inv (b0 : Buffer) (ch : Char) (b2 : Buffer)
    (h0 : b0.cursor_row ≤ b0.lines.length)
    (h : insertCharCore b0 ch = some b2) : b2.inv := by
  unfold insertCharCore at h
  cases hg : b0.lines.get? b0.cursor_row with
  | none =>
    rw [hg] at h
    dsimp only at h
    injection h with h
    subst h
    exact ⟨h0, fun line hl => by rw [hg] at hl; cases hl⟩
  | some line =>
    rw [hg] at h
    dsimp only at h
    obtain ⟨hlt, -⟩ := List.get?_eq_some.mp hg
    unfold Line.insert at h
    by_cases hcc : b0.cursor_col ≤ line.actual.length
    · rw [if_pos hcc] at h
      simp only [Option.map_some'] at h
      injection h with h
      subst h
      constructor
      · show b0.cursor_row ≤ (b0.lines.set b0.cursor_row _).length
        rw [List.length_set]
        exact h0
      · intro l hl
        rw [List.get?_set_eq_of_lt _ hlt] at hl
        injection hl with hl
        subst hl
        show b0.cursor_col + 1 ≤ (Line.new _).len
        simp [Line.len, Line.new, List.length_append, List.length_take,
          List.length_drop]
        omega
    · rw [if_neg hcc] at h
      simp at h

theorem insert_char_inv (b : Buffer) (ch : Char) (b2 : Buffer)
    (hinv : b.inv) (h : b.insert_char ch = some b2) : b2.inv := by
  unfold Buffer.insert_char at h
  by_cases he : b.cursor_row = b.lines.length
  · rw [if_pos he] at h
    refine insertCharCore_inv _ ch b2 ?_ h
    unfold Buffer.insert_row
    rw [if_neg (by omega : ¬ b.cursor_row > b.lines.length)]
    show b.cursor_row ≤ (listInsert b.cursor_row (Line.new []) b.lines).length
    rw [listInsert_length _ _ _ (le_of_eq he)]
    omega
  · rw [if_neg he] at h
    exact insertCharCore_inv _ ch b2 hinv.1 h

theorem insert_new_line_inv (b : Buffer) (b2 : Buffer)
    (hinv : b.inv) (h : b.insert_new_line = some b2) : b2.inv := by
  obtain ⟨hrow, hcol⟩ := hinv
  unfold Buffer.insert_new_line at h
  by_cases hc : b.cursor_col = 0
  · rw [if_pos hc] at h
    injection h with h
    subst h
    unfold newLineAdvance Buffer.insert_row
    rw [if_neg (by omega : ¬ b.cursor_row > b.lines.length)]
    constructor
    · show b.cursor_row + 1 ≤ (listInsert b.cursor_row (Line.new []) b.lines).length
      rw [listInsert_length _ _ _ hrow]
      omega
    · intro line hl
      show 0 ≤ line.len
      exact Nat.zero_le _
  · rw [if_neg hc] at h
    cases hg : b.lines.get? b.cursor_row with
    | none => rw [hg] at h; simp at h
    | some line =>
      rw [hg] at h
      simp only [Option.some_bind] at h
      obtain ⟨hlt, -⟩ := List.get?_eq_some.mp hg
      have hccle : b.cursor_col ≤ line.actual.length := hcol line hg
      unfold Line.split_off at h
      rw [if_pos hccle] at h
      simp only [Option.some_bind, Option.map_some'] at h
      injection h with h
      subst h
      unfold newLineAdvance Buffer.insert_row
      rw [if_neg (by rw [List.length_set]; omega :
        ¬ b.cursor_row + 1 > (b.lines.set b.cursor_row
          (Line.new (line.actual.take b.cursor_col))).length)]
      constructor
      · show b.cursor_row + 1 ≤
          (listInsert (b.cursor_row + 1) _ (b.lines.set b.cursor_row _)).length
        rw [listInsert_length _ _ _ (by rw [List.length_set]; omega)]
        rw [List.length_set]
        omega
      · intro l hl
        show 0 ≤ l.len
        exact Nat.zero_le _

theorem delete_char_inv (b : Buffer) (b2 : Buffer)
    (hinv : b.inv) (h : b.delete_char = some b2) : b2.inv := by
  obtain ⟨hrow, hcol⟩ := hinv
  unfold Buffer.delete_char at h
  by_cases h00 : b.cursor_row = 0 ∧ b.cursor_col = 0
  · rw [if_pos h00] at h
    injection h with h
    subst h
    exact ⟨hrow, hcol⟩
  · rw [if_neg h00] at h
    cases hg : b.lines.get? b.cursor_row with
    | none =>
      rw [hg] at h
      dsimp only at h
      injection h with h
      subst h
      exact ⟨hrow, hcol⟩
    | some line =>
      rw [hg] at h
      dsimp only at h
      obtain ⟨hlt, -⟩ := List.get?_eq_some.mp hg
      have hcle : b.cursor_col ≤ line.len := hcol line hg
      by_cases hcc : 0 < b.cursor_col
      · rw [if_pos hcc] at h
        unfold Line.remove at h
        rw [if_pos (by unfold Line.len at hcle; omega :
          b.cursor_col - 1 < line.actual.length)] at h
        simp only [Option.map_some'] at h
        injection h with h
        subst h
        constructor
        · show b.cursor_row ≤ (b.lines.set b.cursor_row _).length
          rw [List.length_set]
          exact hrow
        · intro l hl
          rw [List.get?_set_eq_of_lt _ hlt] at hl
          injection hl with hl
          subst hl
          show b.cursor_col - 1 ≤ (Line.new _).len
          simp [Line.len, Line.new, List.length_append, List.length_take,
            List.length_drop]
          unfold Line.len at hcle
          omega
      · rw [if_neg hcc] at h
        have hr0 : 0 < b.cursor_row := by
          rcases Nat.eq_zero_or_pos b.cursor_row with h0 | h0
          · exact absurd ⟨h0, by omega⟩ h00
          · exact h0
        have hprevlt : b.cursor_row - 1 < b.lines.length := by omega
        obtain ⟨prev, hgp⟩ : ∃ p, b.lines.get? (b.cursor_row - 1) = some p :=
          ⟨_, List.get?_eq_get hprevlt⟩
        rw [hgp] at h
        simp only [Option.map_some'] at h
        injection h with h
        subst h
        have hd : deleteMergeStep b prev line = { b with
            lines := (b.lines.set (b.cursor_row - 1)
              (prev.push_str line.content)).eraseIdx b.cursor_row,
            cursor_col := prev.len, cursor_row := b.cursor_row - 1,
            dirty := true } := by
          unfold deleteMergeStep Buffer.delete_row
          simp only []
          rw [if_pos (by rw [List.length_set]; exact hlt :
            b.cursor_row < (b.lines.set (b.cursor_row - 1)
              (prev.push_str line.content)).length)]
        rw [hd]
        have hlener : ((b.lines.set (b.cursor_row - 1)
            (prev.push_str line.content)).eraseIdx b.cursor_row).length
            = b.lines.length - 1 := by
          rw [List.length_eraseIdx_of_lt (by rw [List.length_set]; exact hlt)]
          rw [List.length_set]
        constructor
        · show b.cursor_row - 1 ≤ _
          rw [hlener]
          omega
        · intro l hl
          have hgm : ((b.lines.set (b.cursor_row - 1)
              (prev.push_str line.content)).eraseIdx b.cursor_row).get?
                (b.cursor_row - 1) = some (prev.push_str line.content) := by
            rw [List.eraseIdx_eq_take_drop_succ]
            rw [List.get?_append (by simp [List.length_take, List.length_set]; omega)]
            rw [List.get?_take (by omega)]
            exact List.get?_set_eq_of_lt _ hprevlt
          rw [hgm] at hl
          injection hl with hl
          subst hl
          show prev.len ≤ (prev.push_str line.content).len
          simp [Line.push_str, Line.len, Line.new]

/-- C9: move_cursor (for every motion, with positive viewport dimensions),
insert_char, insert_new_line and delete_char preserve the buffer cursor
invariant: whenever the invariant holds before the call and the operation
completes, the invariant holds after. -/
theorem C9_ops_preserve_invariant :
    (∀ (b : Buffer) (m : Motion) (rows cols : Nat) (b2 : Buffer), b.inv →
      1 ≤ rows → 1 ≤ cols → b.move_cursor m rows cols = some b2 → b2.inv)
  ∧ (∀ (b : Buffer) (ch : Char) (b2 : Buffer), b.inv →
      b.insert_char ch = some b2 → b2.inv)
  ∧ (∀ (b b2 : Buffer), b.inv → b.insert_new_line = some b2 → b2.inv)
  ∧ (∀ (b b2 : Buffer), b.inv → b.delete_char = some b2 → b2.inv) := by
  refine ⟨?_, insert_char_inv, insert_new_line_inv, delete_char_inv⟩
  intro b m rows cols b2 hinv hrows hcols h
  obtain ⟨b3, h3, hinv3⟩ := move_cursor_total_inv b m rows cols hinv hcols
  rw [h] at h3
  injection h3 with h3
  rw [h3]
  exact hinv3

theorem C9_witness :
    Buffer.new.inv ∧ 1 ≤ 1 ∧
    Buffer.new.move_cursor Motion.Up 1 1 = some Buffer.new ∧
    Buffer.new.inv := by
  have hinv : Buffer.new.inv :=
    ⟨Nat.le_refl 0, fun line hl => by simp [Buffer.new] at hl⟩
  have hmv : Buffer.new.move_cursor Motion.Up 1 1 = some Buffer.new := by decide
  exact ⟨hinv, Nat.le_refl 1, hmv,
    C9_ops_preserve_invariant.1 Buffer.new Motion.Up 1 1 Buffer.new hinv
      (Nat.le_refl 1) (Nat.le_refl 1) hmv⟩

/-- C10: for every buffer satisfying the cursor invariant and viewport
columns at least one, move_cursor is total: every line index it uses is in
bounds and none of its checked subtractions (in particular cols - 1 in the
End arm) underflows, so the operation returns a result. -/
theorem C10_move_cursor_total (b : Buffer) (m : Motion) (rows cols : Nat)
    (hinv : b.inv) (hcols : 1 ≤ cols) :
    (b.move_cursor m rows cols).isSome := by
  obtain ⟨b2, h, -⟩ := move_cursor_total_inv b m rows cols hinv hcols
  rw [h]
  rfl

theorem C10_witness :
    Buffer.new.inv ∧ 1 ≤ 1 ∧ (Buffer.new.move_cursor Motion.End 1 1).isSome := by
  have hinv : Buffer.new.inv :=
    ⟨Nat.le_refl 0, fun line hl => by simp [Buffer.new] at hl⟩
  exact ⟨hinv, Nat.le_refl 1,
    C10_move_cursor_total Buffer.new Motion.End 1 1 hinv (Nat.le_refl 1)⟩

theorem C8_witness :
    (0 : Nat) < 1 ∧
    (∃ b1 b2,
      Buffer.insert_char { lines := [Line.new ('a' :: [])] } 'z' = some b1 ∧
      b1.delete_char = some b2 ∧
      b2.cursor_row = (0 : Nat) ∧ b2.cursor_col = (0 : Nat) ∧
      (b2.lines.get? 0).map Line.content =
        (({ lines := [Line.new ('a' :: [])] } : Buffer).lines.get? 0).map Line.content) := by
  refine ⟨Nat.zero_lt_one, ?_⟩
  exact C8_insert_delete_round_trip { lines := [Line.new ('a' :: [])] } 'z'
    (by simp) (by intro line h; simp at h; simp [← h, Line.new, Line.len, Line.update])

end Milo
